import Mathlib

/-!
Verification of the Course-Planner catalog engine (`src/main.cpp`).

The C++ program is embedded shallowly:

* `struct Course` becomes the structure `Course`.
* `std::unordered_map` values are embedded as association lists
  (`List (String × α)`); the program only ever reads and writes single
  keys, never iterates a whole map, so the association-list order is
  unobservable except through `size`, which matches the map's cardinal
  because keys stay unique.
* `::tolower` (C locale) is embedded as `asciiLowerChar`, which folds the
  ASCII range `A`–`Z` and leaves every other character unchanged.
* `std::string` comparison (`operator<=`) is byte-wise on the UTF-8
  encoding; for valid Unicode strings that order coincides with Lean's
  `String` order (UTF-8 is order-preserving on scalar values), so the
  embedding uses `≤` on `String`.
* The BFS loop of `findAvailableCourses` is embedded with an explicit
  fuel argument; `bfsFuel` is a proved-sufficient upper bound on the
  number of loop iterations, so the embedded function performs exactly
  the iterations the C++ loop performs.
-/

/-- `struct Course` from `src/main.cpp`: course number, display name, and the
ordered list of prerequisite course numbers. -/
structure Course where
  courseNumber : String
  name : String
  prerequisites : List String
deriving DecidableEq, Repr

/-- C-locale `::tolower` on one character, as applied by
`transform(str.begin(), str.end(), str.begin(), ::tolower)`: fold `A`–`Z`
(code points 65–90) to `a`–`z`, leave everything else unchanged. -/
def asciiLowerChar (c : Char) : Char :=
  if 65 ≤ c.toNat ∧ c.toNat ≤ 90 then Char.ofNat (c.toNat + 32) else c

/-- The spec's `uppercase` operator (P1), ASCII: fold `a`–`z` to `A`–`Z`. -/
def asciiUpperChar (c : Char) : Char :=
  if 97 ≤ c.toNat ∧ c.toNat ≤ 122 then Char.ofNat (c.toNat - 32) else c

/-- `toLower` as defined (identically) in `CourseHashTable` and
`PrerequisiteGraph`: apply `::tolower` to every character. -/
def toLower (s : String) : String :=
  ⟨s.data.map asciiLowerChar⟩

/-- The spec's `uppercase(X)` (property P1), ASCII upper-casing. -/
def strUpper (s : String) : String :=
  ⟨s.data.map asciiUpperChar⟩

theorem char_toNat_ofNat {n : Nat} (h : n < 55296) : (Char.ofNat n).toNat = n := by
  have hv : n.isValidChar := Or.inl h
  rw [Char.ofNat, dif_pos hv]
  rfl

theorem asciiLowerChar_asciiUpperChar (c : Char) :
    asciiLowerChar (asciiUpperChar c) = asciiLowerChar c := by
  by_cases h : 97 ≤ c.toNat ∧ c.toNat ≤ 122
  · have hub : c.toNat - 32 < 55296 := by omega
    have ht : (Char.ofNat (c.toNat - 32)).toNat = c.toNat - 32 := char_toNat_ofNat hub
    rw [asciiUpperChar, if_pos h, asciiLowerChar, if_pos (by omega : 65 ≤ (Char.ofNat (c.toNat - 32)).toNat ∧ (Char.ofNat (c.toNat - 32)).toNat ≤ 90)]
    rw [ht]
    have : c.toNat - 32 + 32 = c.toNat := by omega
    rw [this, Char.ofNat_toNat, asciiLowerChar, if_neg (by omega)]
  · rw [asciiUpperChar, if_neg h]

theorem asciiLowerChar_asciiLowerChar (c : Char) :
    asciiLowerChar (asciiLowerChar c) = asciiLowerChar c := by
  by_cases h : 65 ≤ c.toNat ∧ c.toNat ≤ 90
  · have hub : c.toNat + 32 < 55296 := by omega
    have ht : (Char.ofNat (c.toNat + 32)).toNat = c.toNat + 32 := char_toNat_ofNat hub
    have hc : asciiLowerChar c = Char.ofNat (c.toNat + 32) := by
      rw [asciiLowerChar, if_pos h]
    rw [hc, asciiLowerChar, if_neg (by rw [ht]; omega)]
  · have hc : asciiLowerChar c = c := by rw [asciiLowerChar, if_neg h]
    rw [hc, hc]

theorem toLower_strUpper (s : String) : toLower (strUpper s) = toLower s := by
  show (⟨((s.data.map asciiUpperChar)).map asciiLowerChar⟩ : String) = ⟨s.data.map asciiLowerChar⟩
  rw [List.map_map]
  exact congrArg String.mk (List.map_congr_left (fun a _ => asciiLowerChar_asciiUpperChar a))

theorem toLower_toLower (s : String) : toLower (toLower s) = toLower s := by
  show (⟨((s.data.map asciiLowerChar)).map asciiLowerChar⟩ : String) = ⟨s.data.map asciiLowerChar⟩
  rw [List.map_map]
  exact congrArg String.mk (List.map_congr_left (fun a _ => asciiLowerChar_asciiLowerChar a))

/-! ### Association-list embedding of `std::unordered_map` -/

/-- `m.find(k)` on an `unordered_map` embedded as an association list:
the value stored under `k`, if any.  Keys are unique by construction
(`mapSet` never duplicates a key), so "first match" is "the match". -/
def mapFind {α : Type} : List (String × α) → String → Option α
  | [], _ => none
  | e :: m, k => if e.1 = k then some e.2 else mapFind m k

/-- `m[k] = v` on an `unordered_map`: overwrite the entry for `k`, or append
a fresh entry when `k` is absent. -/
def mapSet {α : Type} : List (String × α) → String → α → List (String × α)
  | [], k, v => [(k, v)]
  | e :: m, k, v => if e.1 = k then (k, v) :: m else e :: mapSet m k v

/-- Reading `m[k]` for a list-valued map whose `operator[]` default
constructs: the stored list, or `[]` when absent. -/
def mapGet (m : List (String × List String)) (k : String) : List String :=
  (mapFind m k).getD []

theorem mapFind_mapSet_self {α : Type} (m : List (String × α)) (k : String) (v : α) :
    mapFind (mapSet m k v) k = some v := by
  induction m with
  | nil => simp [mapSet, mapFind]
  | cons e m ih =>
    by_cases h : e.1 = k
    · simp [mapSet, h, mapFind]
    · simp [mapSet, h, mapFind, ih]

theorem mapFind_mapSet_ne {α : Type} (m : List (String × α)) (k k' : String) (v : α)
    (h : k' ≠ k) : mapFind (mapSet m k v) k' = mapFind m k' := by
  have hk : ¬(k = k') := fun hh => h hh.symm
  induction m with
  | nil => simp [mapSet, mapFind, hk]
  | cons e m ih =>
    by_cases he : e.1 = k
    · rw [mapSet, if_pos he, mapFind, mapFind, if_neg hk, if_neg (he ▸ hk)]
    · by_cases he' : e.1 = k'
      · rw [mapSet, if_neg he, mapFind, if_pos he', mapFind, if_pos he']
      · rw [mapSet, if_neg he, mapFind, if_neg he', mapFind, if_neg he', ih]

theorem mapFind_append {α : Type} (m m' : List (String × α)) (k : String) :
    mapFind (m ++ m') k = match mapFind m k with
      | some v => some v
      | none => mapFind m' k := by
  induction m with
  | nil => simp [mapFind]
  | cons e m ih =>
    by_cases h : e.1 = k
    · simp [mapFind, h]
    · simp [mapFind, h, ih]

theorem mapFind_append_none {α : Type} {m m' : List (String × α)} {k : String}
    (h : mapFind (m ++ m') k = none) : mapFind m k = none := by
  rw [mapFind_append] at h
  cases hm : mapFind m k with
  | none => rfl
  | some v => rw [hm] at h; exact absurd h (by simp)

theorem mapFind_append_some {α : Type} {m : List (String × α)} (m' : List (String × α))
    {k : String} {v : α} (h : mapFind m k = some v) : mapFind (m ++ m') k = some v := by
  rw [mapFind_append, h]

/-! ### `CourseHashTable` -/

/-- `class CourseHashTable`: the hash table `courseMap` keyed by the
lowercased course number. -/
structure CourseHashTable where
  courseMap : List (String × Course)
deriving DecidableEq, Repr

/-- `CourseHashTable()` — the empty table. -/
def CourseHashTable.emptyTable : CourseHashTable := ⟨[]⟩

/-- `insert`: `courseMap[toLower(course.courseNumber)] = course`. -/
def CourseHashTable.insert (t : CourseHashTable) (course : Course) : CourseHashTable :=
  ⟨mapSet t.courseMap (toLower course.courseNumber) course⟩

/-- `find`: look up `toLower(courseNumber)`; `none` embeds `nullptr`. -/
def CourseHashTable.find (t : CourseHashTable) (courseNumber : String) : Option Course :=
  mapFind t.courseMap (toLower courseNumber)

/-- `size`: `courseMap.size()`. -/
def CourseHashTable.size (t : CourseHashTable) : Nat :=
  t.courseMap.length

/-- `empty`: `courseMap.empty()`. -/
def CourseHashTable.emptyQ (t : CourseHashTable) : Bool :=
  t.courseMap.isEmpty

/-- The loader's ingest sequence: insert every record in input order into an
initially empty table. -/
def buildTable (records : List Course) : CourseHashTable :=
  records.foldl CourseHashTable.insert CourseHashTable.emptyTable

theorem keys_mapSet_mem {α : Type} (m : List (String × α)) (k : String) (v : α) :
    ∀ x ∈ (mapSet m k v).map Prod.fst, x ∈ m.map Prod.fst ∨ x = k := by
  induction m with
  | nil => simp [mapSet]
  | cons e m ih =>
    by_cases he : e.1 = k
    · intro x hx
      rw [mapSet, if_pos he] at hx
      rcases hx with hx
      simp only [List.map_cons, List.mem_cons] at hx ⊢
      rcases hx with h1 | h2
      · exact Or.inr h1
      · exact Or.inl (Or.inr h2)
    · intro x hx
      rw [mapSet, if_neg he] at hx
      simp only [List.map_cons, List.mem_cons] at hx ⊢
      rcases hx with h1 | h2
      · exact Or.inl (Or.inl h1)
      · rcases ih x h2 with h3 | h4
        · exact Or.inl (Or.inr h3)
        · exact Or.inr h4

theorem keys_nodup_mapSet {α : Type} (m : List (String × α)) (k : String) (v : α)
    (h : (m.map Prod.fst).Nodup) : ((mapSet m k v).map Prod.fst).Nodup := by
  induction m with
  | nil => simp [mapSet]
  | cons e m ih =>
    rw [List.map_cons, List.nodup_cons] at h
    by_cases he : e.1 = k
    · rw [mapSet, if_pos he, List.map_cons, List.nodup_cons]
      exact ⟨he ▸ h.1, h.2⟩
    · rw [mapSet, if_neg he, List.map_cons, List.nodup_cons]
      refine ⟨fun hx => ?_, ih h.2⟩
      rcases keys_mapSet_mem m k v e.1 hx with h1 | h2
      · exact h.1 h1
      · exact he h2

theorem filter_of_key_not_mem {α : Type} (m : List (String × α)) (k : String)
    (h : k ∉ m.map Prod.fst) :
    m.filter (fun e => decide (e.1 = k)) = [] := by
  induction m with
  | nil => rfl
  | cons e m ih =>
    simp only [List.map_cons, List.mem_cons, not_or] at h
    rw [List.filter_cons]
    rw [if_neg (by simp; exact fun hh => h.1 hh.symm)]
    exact ih h.2

theorem filter_mapSet {α : Type} (m : List (String × α)) (k : String) (v : α)
    (h : (m.map Prod.fst).Nodup) :
    (mapSet m k v).filter (fun e => decide (e.1 = k)) = [(k, v)] := by
  induction m with
  | nil => simp [mapSet]
  | cons e m ih =>
    rw [List.map_cons, List.nodup_cons] at h
    by_cases he : e.1 = k
    · rw [mapSet, if_pos he, List.filter_cons, if_pos (by simp)]
      rw [filter_of_key_not_mem m k (he ▸ h.1)]
    · rw [mapSet, if_neg he, List.filter_cons, if_neg (by simp [he])]
      exact ih h.2

theorem length_mapSet_of_found {α : Type} (m : List (String × α)) (k : String) (v : α)
    (h : (mapFind m k).isSome) : (mapSet m k v).length = m.length := by
  induction m with
  | nil => rw [mapFind] at h; exact absurd h (by simp)
  | cons e m ih =>
    by_cases he : e.1 = k
    · rw [mapSet, if_pos he, List.length_cons, List.length_cons]
    · rw [mapFind, if_neg he] at h
      rw [mapSet, if_neg he, List.length_cons, List.length_cons, ih h]

/-! ### `PrerequisiteGraph` -/

/-- `class PrerequisiteGraph`: `adjacencyList` (course → its prerequisites)
and `reverseList` (course → courses that depend on it). -/
structure PrerequisiteGraph where
  adjacencyList : List (String × List String)
  reverseList : List (String × List String)
deriving DecidableEq, Repr

/-- `PrerequisiteGraph()` — the empty graph. -/
def PrerequisiteGraph.emptyGraph : PrerequisiteGraph := ⟨[], []⟩

/-- One iteration of the prerequisite loop in `addCourse`:
`adjacencyList[courseKey].push_back(toLower(prereq))` and
`reverseList[prereq].push_back(courseKey)` — note that the reverse-map key
is the prerequisite string in its original case. -/
def addPrereqEdge (courseKey : String) (g : PrerequisiteGraph) (prereq : String) :
    PrerequisiteGraph :=
  let prereqKey := toLower prereq
  { adjacencyList := mapSet g.adjacencyList courseKey (mapGet g.adjacencyList courseKey ++ [prereqKey]),
    reverseList := mapSet g.reverseList prereq (mapGet g.reverseList prereq ++ [courseKey]) }

/-- `addCourse`: set `adjacencyList[toLower(courseNumber)]` to the empty
list, then run the prerequisite loop in order. -/
def PrerequisiteGraph.addCourse (g : PrerequisiteGraph) (course : Course) : PrerequisiteGraph :=
  let courseKey := toLower course.courseNumber
  let g1 : PrerequisiteGraph :=
    { g with adjacencyList := mapSet g.adjacencyList courseKey [] }
  course.prerequisites.foldl (addPrereqEdge courseKey) g1

/-- `operator[]` as a read on a list-valued map: return the stored list, or
default-insert an empty entry and return the empty list. -/
def mapRead (m : List (String × List String)) (k : String) :
    List String × List (String × List String) :=
  match mapFind m k with
  | some v => (v, m)
  | none => ([], m ++ [(k, [])])

/-- `getPrerequisites`: `return adjacencyList[toLower(courseNumber)];` — a
read through `operator[]`, which default-inserts a missing key.  The pair
returns the list together with the graph after the read. -/
def PrerequisiteGraph.getPrerequisites (g : PrerequisiteGraph) (courseNumber : String) :
    List String × PrerequisiteGraph :=
  let courseKey := toLower courseNumber
  let (l, adj) := mapRead g.adjacencyList courseKey
  (l, { g with adjacencyList := adj })

/-- The BFS loop of `findAvailableCourses` (lines 183–209).  One fuel unit
per iteration of `while (!q.empty())`; the queue is FIFO (`push` appends,
`front`/`pop` takes the head).  `visited` holds the keys marked true.
Returns the `available` vector and the adjacency list after the
`adjacencyList[current]` default-inserting reads. -/
def bfsAvailable (rev : List (String × List String)) (courseKey : String) :
    Nat → List (String × List String) → List String → List String → List String →
    List String × List (String × List String)
  | 0, adj, _, _, acc => (acc, adj)
  | _ + 1, adj, [], _, acc => (acc, adj)
  | fuel + 1, adj, current :: q, visited, acc =>
    if current ∈ visited then
      bfsAvailable rev courseKey fuel adj q visited acc
    else
      let visited' := current :: visited
      let res := mapRead adj current
      if res.1.all (fun prereq => decide (toLower prereq = courseKey)) then
        let newQ :=
          match mapFind rev current with
          | some deps => q ++ deps.filter (fun next => decide (next ∉ visited'))
          | none => q
        bfsAvailable rev courseKey fuel res.2 newQ visited' (acc ++ [current])
      else
        bfsAvailable rev courseKey fuel res.2 q visited' acc

/-- Total number of values stored in the reverse map — every queue element
is drawn from these, so it bounds the BFS working set. -/
def totalRev (rev : List (String × List String)) : Nat :=
  (rev.map (fun e => e.2.length)).sum

/-- Fuel that dominates the iteration count of the C++ BFS loop: the loop
pops one element per iteration, at most `totalRev` initial elements are
enqueued, and each of the at most `totalRev` distinct visited courses
enqueues at most `totalRev` dependents once. -/
def bfsFuel (rev : List (String × List String)) : Nat :=
  (totalRev rev + 1) * (totalRev rev + 1)

/-- `findAvailableCourses` (lines 168–212): lowercase the completed course,
return empty when the reverse map has no entry for it, otherwise BFS from
its dependents.  The pair returns the `available` vector and the graph
after the loop's default-inserting adjacency reads. -/
def PrerequisiteGraph.findAvailableCourses (g : PrerequisiteGraph) (completedCourse : String) :
    List String × PrerequisiteGraph :=
  let courseKey := toLower completedCourse
  match mapFind g.reverseList courseKey with
  | none => ([], g)
  | some deps =>
    let (acc, adj) :=
      bfsAvailable g.reverseList courseKey (bfsFuel g.reverseList) g.adjacencyList deps [] []
    (acc, { g with adjacencyList := adj })

/-- The loader's graph-building sequence: `addCourse` once per record, in
input order, on a fresh graph. -/
def buildGraph (records : List Course) : PrerequisiteGraph :=
  records.foldl PrerequisiteGraph.addCourse PrerequisiteGraph.emptyGraph

/-! ### Concrete catalogs used by the example claims -/

/-- The catalog of claim C1 / spec P5, prerequisites written in the
records' original upper case. -/
def catUpper : List Course :=
  [⟨"CSCI101", "Intro to Programming", []⟩,
   ⟨"MATH201", "Discrete Math", []⟩,
   ⟨"CSCI200", "Data Structures", ["CSCI101"]⟩,
   ⟨"CSCI300", "Algorithms", ["CSCI200", "MATH201"]⟩,
   ⟨"CSCI350", "Operating Systems", ["CSCI300"]⟩]

/-- The same edge set with the prerequisites written in lower case, so the
original-case reverse-map keys coincide with the lowercased lookup keys. -/
def catLower : List Course :=
  [⟨"CSCI101", "Intro to Programming", []⟩,
   ⟨"MATH201", "Discrete Math", []⟩,
   ⟨"CSCI200", "Data Structures", ["csci101"]⟩,
   ⟨"CSCI300", "Algorithms", ["csci200", "math201"]⟩,
   ⟨"CSCI350", "Operating Systems", ["csci300"]⟩]

/-- A three-course chain `a ← b ← c` (prerequisites written in lower case):
completing `a` unlocks `b`, and `c` depends only on `b`. -/
def catChain : List Course :=
  [⟨"A", "Course A", []⟩,
   ⟨"B", "Course B", ["a"]⟩,
   ⟨"C", "Course C", ["b"]⟩]

/-! ### C2: `addCourse` keys the reverse map by the original-case prerequisite -/

theorem addPrereqEdge_rev_mem (ck q : String) (g : PrerequisiteGraph) :
    ck ∈ mapGet (addPrereqEdge ck g q).reverseList q := by
  show ck ∈ mapGet (mapSet g.reverseList q (mapGet g.reverseList q ++ [ck])) q
  rw [mapGet, mapFind_mapSet_self]
  simp

theorem addPrereqEdge_rev_mem_preserved (ck q p x : String) (g : PrerequisiteGraph)
    (h : x ∈ mapGet g.reverseList p) : x ∈ mapGet (addPrereqEdge ck g q).reverseList p := by
  show x ∈ mapGet (mapSet g.reverseList q (mapGet g.reverseList q ++ [ck])) p
  by_cases hpq : p = q
  · subst hpq
    rw [mapGet, mapFind_mapSet_self]
    simp only [Option.getD_some, List.mem_append]
    exact Or.inl h
  · rw [mapGet, mapFind_mapSet_ne _ _ _ _ hpq]
    exact h

theorem foldl_addPrereqEdge_rev_mem (ck p : String) :
    ∀ (ps : List String) (g : PrerequisiteGraph),
    (p ∈ ps ∨ ck ∈ mapGet g.reverseList p) →
    ck ∈ mapGet (ps.foldl (addPrereqEdge ck) g).reverseList p := by
  intro ps
  induction ps with
  | nil =>
    intro g h
    rcases h with h | h
    · exact absurd h (List.not_mem_nil p)
    · exact h
  | cons q ps ih =>
    intro g h
    rw [List.foldl_cons]
    apply ih
    rcases h with h | h
    · rcases List.mem_cons.mp h with h1 | h2
      · subst h1
        exact Or.inr (addPrereqEdge_rev_mem ck p g)
      · exact Or.inl h2
    · exact Or.inr (addPrereqEdge_rev_mem_preserved ck q p ck g h)

theorem foldl_addPrereqEdge_adj_some (ck : String) :
    ∀ (ps : List String) (g : PrerequisiteGraph),
    (mapFind g.adjacencyList ck).isSome →
    (mapFind ((ps.foldl (addPrereqEdge ck) g)).adjacencyList ck).isSome := by
  intro ps
  induction ps with
  | nil => intro g h; exact h
  | cons q ps ih =>
    intro g h
    rw [List.foldl_cons]
    apply ih
    show (mapFind (mapSet g.adjacencyList ck (mapGet g.adjacencyList ck ++ [toLower q])) ck).isSome
    rw [mapFind_mapSet_self]
    rfl

/-- C2: in `addCourse` the course's own identifier is lowercased as the
forward-map key, while each reverse-map entry is keyed by the prerequisite
string verbatim and holds the lowercased course identifier. -/
theorem claim_C2_reverse_key_original_case (g : PrerequisiteGraph) (course : Course)
    (p : String) (hp : p ∈ course.prerequisites) :
    (mapFind (g.addCourse course).adjacencyList (toLower course.courseNumber)).isSome ∧
    ∃ l, mapFind (g.addCourse course).reverseList p = some l ∧
      toLower course.courseNumber ∈ l := by
  constructor
  · apply foldl_addPrereqEdge_adj_some
    show (mapFind (mapSet g.adjacencyList (toLower course.courseNumber) []) _).isSome
    rw [mapFind_mapSet_self]
    rfl
  · have hmem : toLower course.courseNumber ∈
        mapGet (g.addCourse course).reverseList p :=
      foldl_addPrereqEdge_rev_mem _ p course.prerequisites _ (Or.inl hp)
    cases hfind : mapFind (g.addCourse course).reverseList p with
    | none => rw [mapGet, hfind] at hmem; exact absurd hmem (List.not_mem_nil _)
    | some l =>
      rw [mapGet, hfind] at hmem
      exact ⟨l, rfl, hmem⟩

/-- Witness for C2 at a concrete input: adding `CSCI200` with prerequisite
`CSCI101` (upper case) stores `csci200` under the verbatim key `CSCI101`. -/
theorem claim_C2_witness :
    (mapFind (PrerequisiteGraph.emptyGraph.addCourse
        ⟨"CSCI200", "Data Structures", ["CSCI101"]⟩).adjacencyList (toLower "CSCI200")).isSome ∧
    ∃ l, mapFind (PrerequisiteGraph.emptyGraph.addCourse
        ⟨"CSCI200", "Data Structures", ["CSCI101"]⟩).reverseList "CSCI101" = some l ∧
      toLower "CSCI200" ∈ l :=
  claim_C2_reverse_key_original_case PrerequisiteGraph.emptyGraph
    ⟨"CSCI200", "Data Structures", ["CSCI101"]⟩ "CSCI101" (by decide)

/-! ### C1: the worked reachability example -/

/-- C1 is false on the code: with the prerequisites written in their
original upper case, the reverse map is keyed `CSCI101` verbatim while the
query looks up `csci101`, so `availableAfter("CSCI101")` is empty and in
particular does not include `csci200`. -/
theorem claim_C1_counterexample :
    ((buildGraph catUpper).findAvailableCourses "CSCI101").1 = [] ∧
    "csci200" ∉ ((buildGraph catUpper).findAvailableCourses "CSCI101").1 := by
  decide

/-- C1 amended: on the upper-case catalog both queries return the empty
list (the original-case reverse keys are never found by the lowercased
lookup); the claimed inclusion/exclusion behaviour holds exactly when the
prerequisites are written in lower case in the records. -/
theorem claim_C1_amended :
    ((buildGraph catUpper).findAvailableCourses "CSCI101").1 = [] ∧
    ((buildGraph catUpper).findAvailableCourses "CSCI200").1 = [] ∧
    "csci200" ∈ ((buildGraph catLower).findAvailableCourses "CSCI101").1 ∧
    "csci300" ∉ ((buildGraph catLower).findAvailableCourses "CSCI200").1 := by
  decide

/-! ### C6: case-insensitive lookup -/

/-- C6: `find` is case-insensitive — for any catalog built by ingests and
any identifier, `find(X)`, `find(uppercase(X))` and `find(lowercase(X))`
return the same result. -/
theorem claim_C6_find_case_insensitive (records : List Course) (x : String) :
    (buildTable records).find x = (buildTable records).find (strUpper x) ∧
    (buildTable records).find x = (buildTable records).find (toLower x) := by
  constructor
  · show mapFind _ (toLower x) = mapFind _ (toLower (strUpper x))
    rw [toLower_strUpper]
  · show mapFind _ (toLower x) = mapFind _ (toLower (toLower x))
    rw [toLower_toLower]

/-! ### C7: overwrite on case-equal identifiers -/

/-- C7: inserting two records whose identifiers agree up to case leaves
exactly one record under the lowercased key — the most recent — and the
second insert does not grow the table. -/
theorem claim_C7_overwrite (t : CourseHashTable)
    (hnd : (t.courseMap.map Prod.fst).Nodup) (c1 c2 : Course)
    (hk : toLower c1.courseNumber = toLower c2.courseNumber) :
    ((t.insert c1).insert c2).courseMap.filter
        (fun e => decide (e.1 = toLower c2.courseNumber)) =
      [(toLower c2.courseNumber, c2)] ∧
    ((t.insert c1).insert c2).size = (t.insert c1).size := by
  constructor
  · exact filter_mapSet _ _ _ (keys_nodup_mapSet _ _ _ hnd)
  · show (mapSet (t.insert c1).courseMap (toLower c2.courseNumber) c2).length =
      (t.insert c1).courseMap.length
    apply length_mapSet_of_found
    rw [← hk]
    show (mapFind (mapSet t.courseMap (toLower c1.courseNumber) c1) _).isSome
    rw [mapFind_mapSet_self]
    rfl

/-- Witness for C7: ingesting `CSCI200` then `csci200` into an empty store
keeps one record (the second) and a size of one. -/
theorem claim_C7_witness :
    ((CourseHashTable.emptyTable.insert ⟨"CSCI200", "old", []⟩).insert
        ⟨"csci200", "new", []⟩).courseMap.filter
        (fun e => decide (e.1 = toLower (Course.courseNumber ⟨"csci200", "new", []⟩))) =
      [(toLower (Course.courseNumber ⟨"csci200", "new", []⟩), ⟨"csci200", "new", []⟩)] ∧
    ((CourseHashTable.emptyTable.insert ⟨"CSCI200", "old", []⟩).insert
        ⟨"csci200", "new", []⟩).size =
      (CourseHashTable.emptyTable.insert ⟨"CSCI200", "old", []⟩).size :=
  claim_C7_overwrite CourseHashTable.emptyTable (by decide)
    ⟨"CSCI200", "old", []⟩ ⟨"csci200", "new", []⟩ (by decide)

/-! ### C3: what the BFS cascade can and cannot return -/

/-- Every value stored in the reverse map of a graph built from `records`
names (lowercased) a record that has at least one prerequisite. -/
def RevOK (records : List Course) (g : PrerequisiteGraph) : Prop :=
  ∀ p l, mapFind g.reverseList p = some l → ∀ v ∈ l,
    ∃ r ∈ records, toLower r.courseNumber = v ∧ r.prerequisites ≠ []

theorem revOK_foldl_addPrereqEdge (records : List Course) (ck : String)
    (hck : ∃ r ∈ records, toLower r.courseNumber = ck ∧ r.prerequisites ≠ []) :
    ∀ (ps : List String) (g : PrerequisiteGraph),
    RevOK records g → RevOK records (ps.foldl (addPrereqEdge ck) g) := by
  intro ps
  induction ps with
  | nil => intro g h; exact h
  | cons q ps ih =>
    intro g h
    rw [List.foldl_cons]
    apply ih
    intro p l hfind v hv
    have hrev : (addPrereqEdge ck g q).reverseList =
        mapSet g.reverseList q (mapGet g.reverseList q ++ [ck]) := rfl
    by_cases hpq : p = q
    · rw [hrev, hpq, mapFind_mapSet_self] at hfind
      cases hfind
      rcases List.mem_append.mp hv with h1 | h2
      · cases hold : mapFind g.reverseList q with
        | none => rw [mapGet, hold] at h1; exact absurd h1 (List.not_mem_nil _)
        | some l0 =>
          rw [mapGet, hold] at h1
          exact h q l0 hold v h1
      · rcases List.mem_singleton.mp h2 with h3
        exact h3 ▸ hck
    · rw [hrev, mapFind_mapSet_ne _ _ _ _ hpq] at hfind
      exact h p l hfind v hv

theorem revOK_addCourse (records : List Course) (g : PrerequisiteGraph) (c : Course)
    (h : RevOK records g) (hc : c ∈ records) : RevOK records (g.addCourse c) := by
  by_cases hne : c.prerequisites = []
  · show RevOK records (c.prerequisites.foldl _ _)
    rw [hne]
    exact h
  · apply revOK_foldl_addPrereqEdge records (toLower c.courseNumber)
      ⟨c, hc, rfl, hne⟩
    exact h

theorem revOK_foldl_addCourse (records : List Course) :
    ∀ (rs : List Course) (g : PrerequisiteGraph), (∀ r ∈ rs, r ∈ records) →
    RevOK records g → RevOK records (rs.foldl PrerequisiteGraph.addCourse g) := by
  intro rs
  induction rs with
  | nil => intro g _ h; exact h
  | cons c rs ih =>
    intro g hsub h
    rw [List.foldl_cons]
    exact ih _ (fun r hr => hsub r (List.mem_cons_of_mem c hr))
      (revOK_addCourse records g c h (hsub c (List.mem_cons_self c rs)))

theorem revOK_buildGraph (records : List Course) : RevOK records (buildGraph records) := by
  apply revOK_foldl_addCourse records records _ (fun r hr => hr)
  intro p l hfind
  simp [PrerequisiteGraph.emptyGraph, mapFind] at hfind

theorem foldl_addPrereqEdge_adj_acc (ck : String) :
    ∀ (ps : List String) (g : PrerequisiteGraph) (acc : List String),
    mapFind g.adjacencyList ck = some acc →
    mapFind ((ps.foldl (addPrereqEdge ck) g)).adjacencyList ck =
      some (acc ++ ps.map toLower) := by
  intro ps
  induction ps with
  | nil => intro g acc h; rw [List.foldl_nil, List.map_nil, List.append_nil]; exact h
  | cons q ps ih =>
    intro g acc h
    rw [List.foldl_cons]
    have hset : mapFind (addPrereqEdge ck g q).adjacencyList ck =
        some (acc ++ [toLower q]) := by
      show mapFind (mapSet g.adjacencyList ck (mapGet g.adjacencyList ck ++ [toLower q])) ck =
        some (acc ++ [toLower q])
      rw [mapFind_mapSet_self, mapGet, h]
      rfl
    rw [ih _ _ hset, List.map_cons, List.append_assoc]
    rfl

theorem addCourse_adj_self (g : PrerequisiteGraph) (c : Course) :
    mapFind (g.addCourse c).adjacencyList (toLower c.courseNumber) =
      some (c.prerequisites.map toLower) := by
  have h0 : mapFind (mapSet g.adjacencyList (toLower c.courseNumber) []) (toLower c.courseNumber) =
      some [] := mapFind_mapSet_self _ _ _
  have := foldl_addPrereqEdge_adj_acc (toLower c.courseNumber) c.prerequisites
    { g with adjacencyList := mapSet g.adjacencyList (toLower c.courseNumber) [] } [] h0
  rw [List.nil_append] at this
  exact this

theorem foldl_addPrereqEdge_adj_other (ck k : String) (hk : k ≠ ck) :
    ∀ (ps : List String) (g : PrerequisiteGraph),
    mapFind ((ps.foldl (addPrereqEdge ck) g)).adjacencyList k =
      mapFind g.adjacencyList k := by
  intro ps
  induction ps with
  | nil => intro g; rfl
  | cons q ps ih =>
    intro g
    rw [List.foldl_cons, ih]
    exact mapFind_mapSet_ne _ _ _ _ hk

theorem addCourse_adj_other (g : PrerequisiteGraph) (c : Course) (k : String)
    (hk : k ≠ toLower c.courseNumber) :
    mapFind (g.addCourse c).adjacencyList k = mapFind g.adjacencyList k := by
  show mapFind ((c.prerequisites.foldl (addPrereqEdge (toLower c.courseNumber))
      { g with adjacencyList := mapSet g.adjacencyList (toLower c.courseNumber) [] })).adjacencyList k = _
  rw [foldl_addPrereqEdge_adj_other _ _ hk]
  exact mapFind_mapSet_ne _ _ _ _ hk

theorem foldl_addCourse_adj_untouched (k : String) :
    ∀ (rs : List Course) (g : PrerequisiteGraph), (∀ r ∈ rs, toLower r.courseNumber ≠ k) →
    mapFind ((rs.foldl PrerequisiteGraph.addCourse g)).adjacencyList k =
      mapFind g.adjacencyList k := by
  intro rs
  induction rs with
  | nil => intro g _; rfl
  | cons c rs ih =>
    intro g hk
    rw [List.foldl_cons, ih _ (fun r hr => hk r (List.mem_cons_of_mem c hr))]
    exact addCourse_adj_other g c k (fun h => hk c (List.mem_cons_self c rs) h.symm)

theorem buildGraph_adj_of_mem :
    ∀ (records : List Course) (g : PrerequisiteGraph),
    (records.map (fun r => toLower r.courseNumber)).Nodup →
    ∀ r ∈ records,
    mapFind ((records.foldl PrerequisiteGraph.addCourse g)).adjacencyList
        (toLower r.courseNumber) = some (r.prerequisites.map toLower) := by
  intro records
  induction records with
  | nil => intro g _ r hr; exact absurd hr (List.not_mem_nil r)
  | cons c rs ih =>
    intro g hnd r hr
    rw [List.map_cons, List.nodup_cons] at hnd
    rcases List.mem_cons.mp hr with h1 | h2
    · subst h1
      rw [List.foldl_cons]
      rw [foldl_addCourse_adj_untouched _ rs _
        (fun r' hr' h => hnd.1 (by rw [← h]; exact List.mem_map_of_mem _ hr'))]
      exact addCourse_adj_self g r
    · rw [List.foldl_cons]
      exact ih _ hnd.2 r h2

theorem bfsAvailable_zero (rev : List (String × List String)) (ck : String)
    (adj : List (String × List String)) (q visited acc : List String) :
    bfsAvailable rev ck 0 adj q visited acc = (acc, adj) := rfl

theorem bfsAvailable_nil (rev : List (String × List String)) (ck : String) (fuel : Nat)
    (adj : List (String × List String)) (visited acc : List String) :
    bfsAvailable rev ck (fuel + 1) adj [] visited acc = (acc, adj) := rfl

theorem bfsAvailable_cons (rev : List (String × List String)) (ck : String) (fuel : Nat)
    (adj : List (String × List String)) (current : String) (q visited acc : List String) :
    bfsAvailable rev ck (fuel + 1) adj (current :: q) visited acc =
      if current ∈ visited then bfsAvailable rev ck fuel adj q visited acc
      else if (mapRead adj current).1.all (fun prereq => decide (toLower prereq = ck)) then
        bfsAvailable rev ck fuel (mapRead adj current).2
          (match mapFind rev current with
           | some deps => q ++ deps.filter (fun next => decide (next ∉ current :: visited))
           | none => q)
          (current :: visited) (acc ++ [current])
      else bfsAvailable rev ck fuel (mapRead adj current).2 q (current :: visited) acc := rfl

theorem bfsAvailable_sound (records : List Course) (rev : List (String × List String))
    (ck : String)
    (hrev : ∀ p l, mapFind rev p = some l → ∀ v ∈ l,
        ∃ r ∈ records, toLower r.courseNumber = v ∧ r.prerequisites ≠ []) :
    ∀ (fuel : Nat) (adj : List (String × List String)) (q visited acc : List String),
    (∀ r ∈ records, mapFind adj (toLower r.courseNumber) = some (r.prerequisites.map toLower)) →
    (∀ v ∈ q, ∃ r ∈ records, toLower r.courseNumber = v ∧ r.prerequisites ≠ []) →
    (∀ v ∈ acc, ∃ r ∈ records, toLower r.courseNumber = v ∧ r.prerequisites ≠ [] ∧
        ∀ p ∈ r.prerequisites, toLower p = ck) →
    ∀ v ∈ (bfsAvailable rev ck fuel adj q visited acc).1,
      ∃ r ∈ records, toLower r.courseNumber = v ∧ r.prerequisites ≠ [] ∧
        ∀ p ∈ r.prerequisites, toLower p = ck := by
  intro fuel
  induction fuel with
  | zero =>
    intro adj q visited acc _ _ hacc v hv
    rw [bfsAvailable_zero] at hv
    exact hacc v hv
  | succ fuel ih =>
    intro adj q visited acc hadj hq hacc v hv
    cases q with
    | nil =>
      rw [bfsAvailable_nil] at hv
      exact hacc v hv
    | cons current q' =>
      rw [bfsAvailable_cons] at hv
      by_cases hvis : current ∈ visited
      · rw [if_pos hvis] at hv
        exact ih adj q' visited acc hadj (fun u hu => hq u (List.mem_cons_of_mem _ hu)) hacc v hv
      · rw [if_neg hvis] at hv
        obtain ⟨r, hr, hkey, hne⟩ := hq current (List.mem_cons_self _ _)
        have hfind : mapFind adj current = some (r.prerequisites.map toLower) := by
          rw [← hkey]
          exact hadj r hr
        have hread : mapRead adj current = (r.prerequisites.map toLower, adj) := by
          rw [mapRead, hfind]
        rw [hread] at hv
        by_cases hall : ((r.prerequisites.map toLower).all
            (fun prereq => decide (toLower prereq = ck))) = true
        · have hallP : ∀ p ∈ r.prerequisites, toLower p = ck := by
            intro p hp
            have h1 := List.all_eq_true.mp hall (toLower p) (List.mem_map_of_mem _ hp)
            rw [decide_eq_true_eq] at h1
            rw [← toLower_toLower p]
            exact h1
          have hacc' : ∀ u ∈ acc ++ [current],
              ∃ r ∈ records, toLower r.courseNumber = u ∧ r.prerequisites ≠ [] ∧
                ∀ p ∈ r.prerequisites, toLower p = ck := by
            intro u hu
            rcases List.mem_append.mp hu with h1 | h2
            · exact hacc u h1
            · rcases List.mem_singleton.mp h2 with h3
              exact h3 ▸ ⟨r, hr, hkey, hne, hallP⟩
          rw [if_pos hall] at hv
          cases hdeps : mapFind rev current with
          | some deps =>
            rw [hdeps] at hv
            refine ih adj _ (current :: visited) (acc ++ [current]) hadj ?_ hacc' v hv
            intro u hu
            rcases List.mem_append.mp hu with h1 | h2
            · exact hq u (List.mem_cons_of_mem _ h1)
            · exact hrev current deps hdeps u (List.mem_of_mem_filter h2)
          | none =>
            rw [hdeps] at hv
            exact ih adj q' (current :: visited) (acc ++ [current]) hadj
              (fun u hu => hq u (List.mem_cons_of_mem _ hu)) hacc' v hv
        · rw [if_neg hall] at hv
          exact ih adj q' (current :: visited) acc hadj
            (fun u hu => hq u (List.mem_cons_of_mem _ hu)) hacc v hv

/-- C3 is false on the code: on the lower-case chain `a ← b ← c`, completing
`a` unlocks `b` and enqueues `b`'s dependent `c`, but `c` is tested against
the originally completed course and rejected — the result is exactly
`["b"]`, so the cascade never returns the course that depended only on the
just-unlocked `b`. -/
theorem claim_C3_counterexample :
    ((buildGraph catChain).findAvailableCourses "a").1 = ["b"] ∧
    "c" ∉ ((buildGraph catChain).findAvailableCourses "a").1 := by
  decide

/-- C3 amended: dependents of an available course are enqueued, but every
dequeued candidate is compared against the originally completed identifier,
so (for a catalog adding each course once) every returned course has a
nonempty prerequisite list each entry of which case-folds to the completed
identifier — no course whose prerequisites omit the completed course is
ever returned. -/
theorem claim_C3_no_cascaded_unlock (records : List Course)
    (hnd : (records.map (fun r => toLower r.courseNumber)).Nodup)
    (completed c : String)
    (hc : c ∈ ((buildGraph records).findAvailableCourses completed).1) :
    ∃ r ∈ records, toLower r.courseNumber = c ∧ r.prerequisites ≠ [] ∧
      ∀ p ∈ r.prerequisites, toLower p = toLower completed := by
  cases hrevfind : mapFind (buildGraph records).reverseList (toLower completed) with
  | none =>
    rw [PrerequisiteGraph.findAvailableCourses] at hc
    rw [hrevfind] at hc
    exact absurd hc (List.not_mem_nil c)
  | some deps =>
    rw [PrerequisiteGraph.findAvailableCourses] at hc
    rw [hrevfind] at hc
    refine bfsAvailable_sound records (buildGraph records).reverseList (toLower completed)
      (revOK_buildGraph records) _ _ deps [] [] ?_ ?_ ?_ c hc
    · exact buildGraph_adj_of_mem records PrerequisiteGraph.emptyGraph hnd
    · exact fun v hv => revOK_buildGraph records (toLower completed) deps hrevfind v hv
    · intro v hv
      exact absurd hv (List.not_mem_nil v)

/-- Witness for the amended C3: on the chain catalog, `"b"` is returned
after completing `"a"`, and the theorem recovers its record. -/
theorem claim_C3_witness :
    ∃ r ∈ catChain, toLower r.courseNumber = "b" ∧ r.prerequisites ≠ [] ∧
      ∀ p ∈ r.prerequisites, toLower p = toLower "a" :=
  claim_C3_no_cascaded_unlock catChain (by decide) "a" "b" (by decide)

/-! ### C9: query operations default-insert empty forward entries -/

theorem bfsAvailable_adj_extends (rev : List (String × List String)) (ck : String) :
    ∀ (fuel : Nat) (adj : List (String × List String)) (q visited acc : List String),
    ∃ ks : List String,
      (bfsAvailable rev ck fuel adj q visited acc).2 =
        adj ++ ks.map (fun k => (k, ([] : List String))) ∧
      ∀ k ∈ ks, mapFind adj k = none := by
  intro fuel
  induction fuel with
  | zero =>
    intro adj q visited acc
    exact ⟨[], by rw [bfsAvailable_zero]; simp, fun k hk => absurd hk (List.not_mem_nil k)⟩
  | succ fuel ih =>
    intro adj q visited acc
    cases q with
    | nil =>
      exact ⟨[], by rw [bfsAvailable_nil]; simp, fun k hk => absurd hk (List.not_mem_nil k)⟩
    | cons current q' =>
      by_cases hvis : current ∈ visited
      · obtain ⟨ks, h1, h2⟩ := ih adj q' visited acc
        refine ⟨ks, ?_, h2⟩
        rw [bfsAvailable_cons, if_pos hvis]
        exact h1
      · cases hfind : mapFind adj current with
        | some prereqs =>
          have hread : mapRead adj current = (prereqs, adj) := by rw [mapRead, hfind]
          by_cases hall : (prereqs.all (fun prereq => decide (toLower prereq = ck))) = true
          · cases hdeps : mapFind rev current with
            | some deps =>
              obtain ⟨ks, h1, h2⟩ := ih adj
                (q' ++ deps.filter (fun next => decide (next ∉ current :: visited)))
                (current :: visited) (acc ++ [current])
              refine ⟨ks, ?_, h2⟩
              rw [bfsAvailable_cons, if_neg hvis]
              simp only [hread, hdeps]
              rw [if_pos hall]
              exact h1
            | none =>
              obtain ⟨ks, h1, h2⟩ := ih adj q' (current :: visited) (acc ++ [current])
              refine ⟨ks, ?_, h2⟩
              rw [bfsAvailable_cons, if_neg hvis]
              simp only [hread, hdeps]
              rw [if_pos hall]
              exact h1
          · obtain ⟨ks, h1, h2⟩ := ih adj q' (current :: visited) acc
            refine ⟨ks, ?_, h2⟩
            rw [bfsAvailable_cons, if_neg hvis]
            simp only [hread]
            rw [if_neg hall]
            exact h1
        | none =>
          have hread : mapRead adj current = ([], adj ++ [(current, [])]) := by
            rw [mapRead, hfind]
          by_cases hall : (List.all ([] : List String)
              (fun prereq => decide (toLower prereq = ck))) = true
          · cases hdeps : mapFind rev current with
            | some deps =>
              obtain ⟨ks, h1, h2⟩ := ih (adj ++ [(current, [])])
                (q' ++ deps.filter (fun next => decide (next ∉ current :: visited)))
                (current :: visited) (acc ++ [current])
              refine ⟨current :: ks, ?_, ?_⟩
              · rw [bfsAvailable_cons, if_neg hvis]
                simp only [hread, hdeps]
                rw [if_pos hall, h1, List.map_cons, List.append_assoc]
                rfl
              · intro k hk
                rcases List.mem_cons.mp hk with h3 | h4
                · rw [h3]; exact hfind
                · exact mapFind_append_none (h2 k h4)
            | none =>
              obtain ⟨ks, h1, h2⟩ := ih (adj ++ [(current, [])]) q'
                (current :: visited) (acc ++ [current])
              refine ⟨current :: ks, ?_, ?_⟩
              · rw [bfsAvailable_cons, if_neg hvis]
                simp only [hread, hdeps]
                rw [if_pos hall, h1, List.map_cons, List.append_assoc]
                rfl
              · intro k hk
                rcases List.mem_cons.mp hk with h3 | h4
                · rw [h3]; exact hfind
                · exact mapFind_append_none (h2 k h4)
          · exact absurd (by rw [List.all_nil]) hall

/-- C9: the query operations are not read-only — `getPrerequisites` on a
never-added identifier appends a fresh empty forward entry under the
lowercased identifier, and `findAvailableCourses` leaves the reverse map
unchanged while extending the adjacency map by empty entries for
previously absent keys only. -/
theorem claim_C9_queries_default_insert :
    (∀ (g : PrerequisiteGraph) (x : String),
      mapFind g.adjacencyList (toLower x) = none →
      g.getPrerequisites x =
        ([], { g with adjacencyList := g.adjacencyList ++ [(toLower x, [])] })) ∧
    (∀ (g : PrerequisiteGraph) (completed : String),
      (g.findAvailableCourses completed).2.reverseList = g.reverseList ∧
      ∃ ks : List String,
        (g.findAvailableCourses completed).2.adjacencyList =
          g.adjacencyList ++ ks.map (fun k => (k, ([] : List String))) ∧
        ∀ k ∈ ks, mapFind g.adjacencyList k = none) := by
  constructor
  · intro g x h
    rw [PrerequisiteGraph.getPrerequisites]
    simp only [mapRead, h]
  · intro g completed
    cases hrevfind : mapFind g.reverseList (toLower completed) with
    | none =>
      rw [PrerequisiteGraph.findAvailableCourses]
      rw [hrevfind]
      exact ⟨rfl, [], by simp, fun k hk => absurd hk (List.not_mem_nil k)⟩
    | some deps =>
      rw [PrerequisiteGraph.findAvailableCourses]
      rw [hrevfind]
      obtain ⟨ks, h1, h2⟩ := bfsAvailable_adj_extends g.reverseList (toLower completed)
        (bfsFuel g.reverseList) g.adjacencyList deps [] []
      exact ⟨rfl, ks, h1, h2⟩

/-- Witness for C9 at concrete inputs: querying the chain catalog's graph
for the prerequisites of the never-added `MATH999` appends exactly the
empty entry `("math999", [])`, and `findAvailableCourses "a"` leaves the
reverse map unchanged while only default-inserting fresh empty entries. -/
theorem claim_C9_witness :
    (buildGraph catChain).getPrerequisites "MATH999" =
      ([], { buildGraph catChain with
        adjacencyList := (buildGraph catChain).adjacencyList ++ [(toLower "MATH999", [])] }) ∧
    ((buildGraph catChain).findAvailableCourses "a").2.reverseList =
      (buildGraph catChain).reverseList ∧
    ∃ ks : List String,
      ((buildGraph catChain).findAvailableCourses "a").2.adjacencyList =
        (buildGraph catChain).adjacencyList ++ ks.map (fun k => (k, ([] : List String))) ∧
      ∀ k ∈ ks, mapFind (buildGraph catChain).adjacencyList k = none :=
  ⟨claim_C9_queries_default_insert.1 (buildGraph catChain) "MATH999" (by decide),
   claim_C9_queries_default_insert.2 (buildGraph catChain) "a"⟩

/-! ### `MergeSort` -/

/-- The comparison of `MergeSort::merge`:
`leftArray[i].courseNumber <= rightArray[j].courseNumber`.  C++ compares
`std::string` byte-wise; on UTF-8 data that order is Lean's `String`
order. -/
def courseLe (a b : Course) : Prop :=
  a.courseNumber ≤ b.courseNumber

instance (a b : Course) : Decidable (courseLe a b) := by
  rw [courseLe]
  infer_instance

/-- The three `while` loops of `MergeSort::merge` (lines 283–304): take the
smaller-or-equal head, the left element on ties, then drain whichever
temporary array remains. -/
def mergeLoop : List Course → List Course → List Course
  | [], ys => ys
  | x :: xs, [] => x :: xs
  | x :: xs, y :: ys =>
    if x.courseNumber ≤ y.courseNumber then x :: mergeLoop xs (y :: ys)
    else y :: mergeLoop (x :: xs) ys
termination_by xs ys => xs.length + ys.length

/-- The write-back of `merge`: `courses[k] = ...; k++;` starting at `left`,
one element of the merged sequence per iteration. -/
def writeSeg : List Course → Nat → List Course → List Course
  | c, _, [] => c
  | c, k, x :: xs => writeSeg (c.set k x) (k + 1) xs

/-- `MergeSort::merge(courses, left, mid, right)`: copy
`courses[left..mid]` and `courses[mid+1..right]` into temporaries, merge
them, and write the result back starting at `left`. -/
def merge (courses : List Course) (left mid right : Nat) : List Course :=
  let n1 := mid - left + 1
  let n2 := right - mid
  let leftArray := (courses.drop left).take n1
  let rightArray := (courses.drop (mid + 1)).take n2
  writeSeg courses left (mergeLoop leftArray rightArray)

/-- `MergeSort::mergeSort(courses, left, right)`: recursive split at
`mid = left + (right - left) / 2` followed by `merge`.  The source indices
are `int`s; every index reached from a call with `0 ≤ left ≤ right` is
non-negative, so they are embedded as `Nat`. -/
def mergeSort (courses : List Course) (left right : Nat) : List Course :=
  if left < right then
    merge
      (mergeSort (mergeSort courses left (left + (right - left) / 2))
        ((left + (right - left) / 2) + 1) right)
      left (left + (right - left) / 2) right
  else courses
termination_by right - left
decreasing_by
  · omega
  · omega

/-- List-level reference form of `mergeSort` on a whole segment: split at
`(n + 1) / 2` — exactly the sizes `mergeSort` induces, since the left part
`[left..mid]` has `(n - 1) / 2 + 1 = (n + 1) / 2` elements — recurse, and
merge with `mergeLoop`. -/
def msortList (c : List Course) : List Course :=
  if c.length ≤ 1 then c
  else
    mergeLoop (msortList (c.take ((c.length + 1) / 2)))
      (msortList (c.drop ((c.length + 1) / 2)))
termination_by c.length
decreasing_by
  · rw [List.length_take]; omega
  · rw [List.length_drop]; omega

theorem mergeLoop_length : ∀ (xs ys : List Course),
    (mergeLoop xs ys).length = xs.length + ys.length := by
  intro xs ys
  induction xs, ys using mergeLoop.induct with
  | case1 ys => simp [mergeLoop]
  | case2 x xs => simp [mergeLoop]
  | case3 x xs y ys h ih =>
    rw [mergeLoop, if_pos h]
    simp only [List.length_cons, ih]
    omega
  | case4 x xs y ys h ih =>
    rw [mergeLoop, if_neg h]
    simp only [List.length_cons, ih]
    omega

theorem mergeLoop_perm : ∀ (xs ys : List Course),
    (mergeLoop xs ys).Perm (xs ++ ys) := by
  intro xs ys
  induction xs, ys using mergeLoop.induct with
  | case1 ys => simp [mergeLoop]
  | case2 x xs => simp [mergeLoop]
  | case3 x xs y ys h ih =>
    rw [mergeLoop, if_pos h]
    exact (ih.cons x)
  | case4 x xs y ys h ih =>
    rw [mergeLoop, if_neg h]
    exact (ih.cons y).trans List.perm_middle.symm

theorem mergeLoop_mem (xs ys : List Course) (z : Course) :
    z ∈ mergeLoop xs ys ↔ z ∈ xs ∨ z ∈ ys := by
  rw [(mergeLoop_perm xs ys).mem_iff, List.mem_append]

theorem mergeLoop_pairwise : ∀ (xs ys : List Course),
    List.Pairwise courseLe xs → List.Pairwise courseLe ys →
    List.Pairwise courseLe (mergeLoop xs ys) := by
  intro xs ys
  induction xs, ys using mergeLoop.induct with
  | case1 ys => intro _ h; rw [mergeLoop]; exact h
  | case2 x xs => intro h _; rw [mergeLoop]; exact h
  | case3 x xs y ys h ih =>
    intro hx hy
    rw [mergeLoop, if_pos h, List.pairwise_cons]
    rw [List.pairwise_cons] at hx
    refine ⟨?_, ih hx.2 hy⟩
    intro b hb
    rcases (mergeLoop_mem xs (y :: ys) b).mp hb with h1 | h2
    · exact hx.1 b h1
    · rcases List.mem_cons.mp h2 with h3 | h4
      · rw [h3]; exact h
      · rw [List.pairwise_cons] at hy
        exact le_trans (show courseLe x y from h) (hy.1 b h4)
  | case4 x xs y ys h ih =>
    intro hx hy
    rw [mergeLoop, if_neg h, List.pairwise_cons]
    rw [List.pairwise_cons] at hy
    have hyx : courseLe y x := le_of_not_le h
    refine ⟨?_, ih hx hy.2⟩
    intro b hb
    rcases (mergeLoop_mem (x :: xs) ys b).mp hb with h1 | h2
    · rcases List.mem_cons.mp h1 with h3 | h4
      · rw [h3]; exact hyx
      · rw [List.pairwise_cons] at hx
        exact le_trans hyx (hx.1 b h4)
    · exact hy.1 b h2

theorem mergeLoop_filter : ∀ (xs ys : List Course), List.Pairwise courseLe xs →
    ∀ s : String,
    (mergeLoop xs ys).filter (fun c => decide (c.courseNumber = s)) =
      xs.filter (fun c => decide (c.courseNumber = s)) ++
      ys.filter (fun c => decide (c.courseNumber = s)) := by
  intro xs ys
  induction xs, ys using mergeLoop.induct with
  | case1 ys => intro _ s; rw [mergeLoop]; simp
  | case2 x xs => intro _ s; rw [mergeLoop]; simp
  | case3 x xs y ys h ih =>
    intro hx s
    rw [List.pairwise_cons] at hx
    rw [mergeLoop, if_pos h, List.filter_cons, List.filter_cons]
    by_cases hxs : x.courseNumber = s
    · rw [if_pos (by simp [hxs]), if_pos (by simp [hxs])]
      rw [ih hx.2 s, List.cons_append]
    · rw [if_neg (by simp [hxs]), if_neg (by simp [hxs])]
      exact ih hx.2 s
  | case4 x xs y ys h ih =>
    intro hx s
    have hlt : y.courseNumber < x.courseNumber := lt_of_not_le h
    rw [mergeLoop, if_neg h, List.filter_cons]
    by_cases hys : y.courseNumber = s
    · have hxnil : (x :: xs).filter (fun c => decide (c.courseNumber = s)) = [] := by
        apply List.filter_eq_nil_iff.mpr
        intro a ha
        simp only [decide_eq_true_eq]
        rcases List.mem_cons.mp ha with h3 | h4
        · rw [h3, ← hys]; exact ne_of_gt hlt
        · rw [List.pairwise_cons] at hx
          have : courseLe x a := hx.1 a h4
          rw [← hys]
          exact ne_of_gt (lt_of_lt_of_le hlt this)
      rw [if_pos (by simp [hys]), ih hx s, hxnil]
      simp [List.filter_cons, hys]
    · rw [if_neg (by simp [hys]), ih hx s]
      simp [List.filter_cons, hys]

theorem mergeLoop_of_pairwise_append : ∀ (xs ys : List Course),
    List.Pairwise courseLe (xs ++ ys) → mergeLoop xs ys = xs ++ ys := by
  intro xs ys
  induction xs, ys using mergeLoop.induct with
  | case1 ys => intro _; rw [mergeLoop]; rfl
  | case2 x xs => intro _; rw [mergeLoop]; simp
  | case3 x xs y ys h ih =>
    intro hp
    rw [List.cons_append, List.pairwise_cons] at hp
    rw [mergeLoop, if_pos h, ih hp.2, List.cons_append]
  | case4 x xs y ys h ih =>
    intro hp
    rw [List.cons_append, List.pairwise_cons] at hp
    have : courseLe x y := hp.1 y (by simp)
    exact absurd this h

theorem writeSeg_decomp : ∀ (M X A B : List Course), X.length = M.length →
    writeSeg (A ++ (X ++ B)) A.length M = A ++ (M ++ B) := by
  intro M
  induction M with
  | nil =>
    intro X A B hX
    rw [List.length_nil, List.length_eq_zero] at hX
    rw [hX, writeSeg]
  | cons m M ih =>
    intro X A B hX
    cases X with
    | nil => rw [List.length_nil, List.length_cons] at hX; omega
    | cons x X =>
      rw [List.length_cons, List.length_cons, Nat.succ_inj] at hX
      rw [List.cons_append, writeSeg]
      have hset : (A ++ (x :: (X ++ B))).set A.length m = A ++ (m :: (X ++ B)) := by
        rw [List.set_append_right _ _ (Nat.le_refl _), Nat.sub_self]
        rfl
      rw [hset]
      have hre : A ++ (m :: (X ++ B)) = (A ++ [m]) ++ (X ++ B) := by
        rw [List.append_assoc, List.singleton_append]
      have hlen : A.length + 1 = (A ++ [m]).length := by
        rw [List.length_append, List.length_singleton]
      rw [hre, hlen, ih X (A ++ [m]) B hX, List.append_assoc, List.singleton_append,
        List.cons_append]

theorem merge_decomp (A T1 T2 B : List Course) (l mid r : Nat)
    (hA : A.length = l) (h1 : T1.length = mid - l + 1) (h2 : T2.length = r - mid)
    (hlm : l ≤ mid) :
    merge (A ++ (T1 ++ (T2 ++ B))) l mid r = A ++ (mergeLoop T1 T2 ++ B) := by
  rw [merge]
  have hdropL : (A ++ (T1 ++ (T2 ++ B))).drop l = T1 ++ (T2 ++ B) :=
    List.drop_left' hA
  have hleft : ((A ++ (T1 ++ (T2 ++ B))).drop l).take (mid - l + 1) = T1 := by
    rw [hdropL]
    exact List.take_left' h1
  have hassoc : A ++ (T1 ++ (T2 ++ B)) = (A ++ T1) ++ (T2 ++ B) := by
    rw [List.append_assoc]
  have hdropR : (A ++ (T1 ++ (T2 ++ B))).drop (mid + 1) = T2 ++ B := by
    rw [hassoc]
    exact List.drop_left' (by rw [List.length_append, hA, h1]; omega)
  have hright : ((A ++ (T1 ++ (T2 ++ B))).drop (mid + 1)).take (r - mid) = T2 := by
    rw [hdropR]
    exact List.take_left' h2
  rw [hleft, hright]
  have hX : (T1 ++ T2).length = (mergeLoop T1 T2).length := by
    rw [List.length_append, mergeLoop_length]
  have hc : A ++ (T1 ++ (T2 ++ B)) = A ++ ((T1 ++ T2) ++ B) := by
    rw [List.append_assoc]
  rw [← hA, hc, writeSeg_decomp (mergeLoop T1 T2) (T1 ++ T2) A B hX]

theorem msortList_perm : ∀ c : List Course, (msortList c).Perm c := by
  intro c
  induction c using msortList.induct with
  | case1 c h => rw [msortList, if_pos h]
  | case2 c h ih1 ih2 =>
    rw [msortList, if_neg h]
    have h3 := List.take_append_drop ((c.length + 1) / 2) c
    have h4 := (mergeLoop_perm (msortList (c.take ((c.length + 1) / 2)))
      (msortList (c.drop ((c.length + 1) / 2)))).trans (ih1.append ih2)
    rw [h3] at h4
    exact h4

theorem msortList_length (c : List Course) : (msortList c).length = c.length :=
  (msortList_perm c).length_eq

theorem msortList_pairwise : ∀ c : List Course, List.Pairwise courseLe (msortList c) := by
  intro c
  induction c using msortList.induct with
  | case1 c h =>
    rw [msortList, if_pos h]
    cases c with
    | nil => exact List.Pairwise.nil
    | cons a t =>
      cases t with
      | nil => simp
      | cons b u => rw [List.length_cons, List.length_cons] at h; omega
  | case2 c h ih1 ih2 =>
    rw [msortList, if_neg h]
    exact mergeLoop_pairwise _ _ ih1 ih2

theorem msortList_filter : ∀ (c : List Course) (s : String),
    (msortList c).filter (fun x => decide (x.courseNumber = s)) =
      c.filter (fun x => decide (x.courseNumber = s)) := by
  intro c
  induction c using msortList.induct with
  | case1 c h => intro s; rw [msortList, if_pos h]
  | case2 c h ih1 ih2 =>
    intro s
    rw [msortList, if_neg h]
    rw [mergeLoop_filter _ _ (msortList_pairwise _) s, ih1 s, ih2 s, ← List.filter_append,
      List.take_append_drop]

theorem msortList_of_pairwise : ∀ c : List Course,
    List.Pairwise courseLe c → msortList c = c := by
  intro c
  induction c using msortList.induct with
  | case1 c h => intro _; rw [msortList, if_pos h]
  | case2 c h ih1 ih2 =>
    intro hp
    have hpt : List.Pairwise courseLe (c.take ((c.length + 1) / 2)) :=
      hp.sublist (List.take_sublist _ _)
    have hpd : List.Pairwise courseLe (c.drop ((c.length + 1) / 2)) :=
      hp.sublist (List.drop_sublist _ _)
    rw [msortList, if_neg h, ih1 hpt, ih2 hpd,
      mergeLoop_of_pairwise_append _ _ (by rw [List.take_append_drop]; exact hp),
      List.take_append_drop]

theorem mergeSort_decomp_aux : ∀ (n : Nat) (S A B : List Course) (l r : Nat),
    S.length = n → A.length = l → S.length = r - l + 1 →
    mergeSort (A ++ (S ++ B)) l r = A ++ (msortList S ++ B) := by
  intro n
  induction n using Nat.strong_induction_on with
  | _ n ih =>
    intro S A B l r hn hA hS
    by_cases hlr : l < r
    · have hlen2 : 2 ≤ S.length := by omega
      have hsplit : S.take ((S.length + 1) / 2) ++ S.drop ((S.length + 1) / 2) = S :=
        List.take_append_drop _ S
      have hlen1 : (msortList (S.take ((S.length + 1) / 2))).length = (S.length + 1) / 2 := by
        rw [msortList_length, List.length_take]
        omega
      have hstep1 : mergeSort (A ++ (S ++ B)) l (l + (r - l) / 2) =
          A ++ (msortList (S.take ((S.length + 1) / 2)) ++
            (S.drop ((S.length + 1) / 2) ++ B)) := by
        have hre : A ++ (S ++ B) =
            A ++ (S.take ((S.length + 1) / 2) ++ (S.drop ((S.length + 1) / 2) ++ B)) := by
          rw [← List.append_assoc (S.take ((S.length + 1) / 2)) (S.drop ((S.length + 1) / 2)) B,
            hsplit]
        rw [hre]
        exact ih (S.take ((S.length + 1) / 2)).length
          (by rw [List.length_take]; omega) _ _ _ _ _ rfl hA
          (by rw [List.length_take]; omega)
      have hstep2 : mergeSort
          (A ++ (msortList (S.take ((S.length + 1) / 2)) ++
            (S.drop ((S.length + 1) / 2) ++ B)))
          ((l + (r - l) / 2) + 1) r =
          (A ++ msortList (S.take ((S.length + 1) / 2))) ++
            (msortList (S.drop ((S.length + 1) / 2)) ++ B) := by
        rw [← List.append_assoc A (msortList (S.take ((S.length + 1) / 2)))
          (S.drop ((S.length + 1) / 2) ++ B)]
        exact ih (S.drop ((S.length + 1) / 2)).length
          (by rw [List.length_drop]; omega) _ _ _ _ _ rfl
          (by rw [List.length_append, hA, hlen1]; omega)
          (by rw [List.length_drop]; omega)
      rw [mergeSort, if_pos hlr, hstep1, hstep2,
        List.append_assoc A (msortList (S.take ((S.length + 1) / 2)))
          (msortList (S.drop ((S.length + 1) / 2)) ++ B),
        merge_decomp A (msortList (S.take ((S.length + 1) / 2)))
          (msortList (S.drop ((S.length + 1) / 2))) B l (l + (r - l) / 2) r hA
          (by rw [hlen1]; omega)
          (by rw [msortList_length, List.length_drop]; omega)
          (by omega)]
      have hms : msortList S =
          mergeLoop (msortList (S.take ((S.length + 1) / 2)))
            (msortList (S.drop ((S.length + 1) / 2))) := by
        rw [msortList, if_neg (by omega)]
      rw [hms]
    · have hS1 : S.length = 1 := by omega
      obtain ⟨s, hs⟩ := List.length_eq_one.mp hS1
      rw [mergeSort, if_neg hlr, hs, msortList, if_pos (by simp)]

/-- `mergeSort courses left right` sorts exactly the segment
`courses[left..right]` (to `msortList` of that segment) and leaves the
prefix before `left` and the suffix after `right` untouched. -/
theorem mergeSort_decomp (S A B : List Course) (l r : Nat)
    (hA : A.length = l) (hS : S.length = r - l + 1) :
    mergeSort (A ++ (S ++ B)) l r = A ++ (msortList S ++ B) :=
  mergeSort_decomp_aux S.length S A B l r rfl hA hS

/-- On a whole nonempty list, `mergeSort c 0 (c.length - 1)` is
`msortList c`. -/
theorem mergeSort_eq_msortList (c : List Course) (h : 1 ≤ c.length) :
    mergeSort c 0 (c.length - 1) = msortList c := by
  have h1 : mergeSort ([] ++ (c ++ [])) 0 (c.length - 1) = [] ++ (msortList c ++ []) :=
    mergeSort_decomp c [] [] 0 (c.length - 1) rfl (by omega)
  simp only [List.nil_append, List.append_nil] at h1
  exact h1

/-- C5: the sort over indices `0..n-1` produces a sequence non-decreasing
by identifier (ordinal comparison of the original-case strings), and
records with equal identifiers keep their relative input order. -/
theorem claim_C5_sort_sorted_stable (courses : List Course) :
    List.Pairwise courseLe (mergeSort courses 0 (courses.length - 1)) ∧
    ∀ s : String,
      (mergeSort courses 0 (courses.length - 1)).filter
          (fun c => decide (c.courseNumber = s)) =
        courses.filter (fun c => decide (c.courseNumber = s)) := by
  rcases Nat.eq_zero_or_pos courses.length with hlen | hlen
  · have hnil : courses = [] := List.length_eq_zero.mp hlen
    subst hnil
    have h0 : mergeSort ([] : List Course) 0 (List.length ([] : List Course) - 1) = [] := by
      rw [mergeSort, if_neg (by simp)]
    refine ⟨?_, ?_⟩
    · rw [h0]; exact List.Pairwise.nil
    · intro s; rw [h0]
  · rw [mergeSort_eq_msortList courses hlen]
    exact ⟨msortList_pairwise courses, fun s => msortList_filter courses s⟩

/-- C8: the sort is idempotent — sorting the sorted output (over its own
index range `0..n-1`) returns it unchanged. -/
theorem claim_C8_sort_idempotent (courses : List Course) :
    mergeSort (mergeSort courses 0 (courses.length - 1)) 0
      ((mergeSort courses 0 (courses.length - 1)).length - 1) =
    mergeSort courses 0 (courses.length - 1) := by
  rcases Nat.eq_zero_or_pos courses.length with hlen | hlen
  · have hnil : courses = [] := List.length_eq_zero.mp hlen
    subst hnil
    have h0 : mergeSort ([] : List Course) 0 (List.length ([] : List Course) - 1) = [] := by
      rw [mergeSort, if_neg (by simp)]
    rw [h0, h0]
  · rw [mergeSort_eq_msortList courses hlen]
    rw [mergeSort_eq_msortList (msortList courses) (by rw [msortList_length]; omega)]
    exact msortList_of_pairwise _ (msortList_pairwise courses)

/-- C10: `mergeSort courses left right` permutes exactly the records in
positions `left..right` and leaves every position outside that range
unchanged. -/
theorem claim_C10_sort_frame_perm (courses : List Course) (l r : Nat)
    (hlr : l ≤ r) (hr : r < courses.length) :
    (mergeSort courses l r).take l = courses.take l ∧
    (mergeSort courses l r).drop (r + 1) = courses.drop (r + 1) ∧
    (((mergeSort courses l r).drop l).take (r - l + 1)).Perm
      ((courses.drop l).take (r - l + 1)) := by
  have hA : (courses.take l).length = l := by rw [List.length_take]; omega
  have hS : ((courses.drop l).take (r - l + 1)).length = r - l + 1 := by
    rw [List.length_take, List.length_drop]
    omega
  have hdd : (courses.drop l).drop (r - l + 1) = courses.drop (r + 1) := by
    rw [List.drop_drop]
    congr 1
    omega
  have h1 : (courses.drop l).take (r - l + 1) ++ (courses.drop l).drop (r - l + 1) =
      courses.drop l := List.take_append_drop _ _
  rw [hdd] at h1
  have hc : courses = courses.take l ++
      ((courses.drop l).take (r - l + 1) ++ courses.drop (r + 1)) := by
    rw [h1]
    exact (List.take_append_drop l courses).symm
  have hdecomp := mergeSort_decomp ((courses.drop l).take (r - l + 1)) (courses.take l)
    (courses.drop (r + 1)) l r hA hS
  rw [← hc] at hdecomp
  refine ⟨?_, ?_, ?_⟩
  · rw [hdecomp, List.take_left' hA]
  · rw [hdecomp, ← List.append_assoc]
    exact List.drop_left' (by rw [List.length_append, hA, msortList_length, hS]; omega)
  · rw [hdecomp, List.drop_left' hA, List.take_left' (by rw [msortList_length, hS])]
    exact msortList_perm _

/-- Witness for C10 at a concrete input: sorting positions 1..2 of a
three-record vector keeps position 0 and permutes the segment. -/
theorem claim_C10_witness :
    (mergeSort [⟨"B", "b", []⟩, ⟨"C", "c", []⟩, ⟨"A", "a", []⟩] 1 2).take 1 =
      ([⟨"B", "b", []⟩, ⟨"C", "c", []⟩, ⟨"A", "a", []⟩] : List Course).take 1 ∧
    (mergeSort [⟨"B", "b", []⟩, ⟨"C", "c", []⟩, ⟨"A", "a", []⟩] 1 2).drop 3 =
      ([⟨"B", "b", []⟩, ⟨"C", "c", []⟩, ⟨"A", "a", []⟩] : List Course).drop 3 ∧
    (((mergeSort [⟨"B", "b", []⟩, ⟨"C", "c", []⟩, ⟨"A", "a", []⟩] 1 2).drop 1).take 2).Perm
      ((([⟨"B", "b", []⟩, ⟨"C", "c", []⟩, ⟨"A", "a", []⟩] : List Course).drop 1).take 2) :=
  claim_C10_sort_frame_perm [⟨"B", "b", []⟩, ⟨"C", "c", []⟩, ⟨"A", "a", []⟩] 1 2
    (by decide) (by decide)

/-! ### The loader (`loadCoursesFile`) and C4 -/

/-- The program's global mutable state (lines 310–312): the hash table, the
graph, and the `dataLoaded` flag. -/
structure GlobalState where
  courseHashTable : CourseHashTable
  prereqGraph : PrerequisiteGraph
  dataLoaded : Bool
deriving DecidableEq, Repr

/-- `format` (lines 322–334): split the line at every `","`, keeping empty
tokens, with the remainder after the last delimiter as the final token —
`String.splitOn ","` computes exactly this. -/
def format (s : String) : List String :=
  s.splitOn ","

/-- One loop body of `loadCoursesFile` (lines 364–373): `info[0]` is the
course number, `info[1]` the name, the remaining tokens the prerequisites.
The source reads `info[1]` unconditionally (out-of-range on a comma-free
line is undefined behaviour in C++); the embedding returns `""` there. -/
def parseCourseLine (line : String) : Course :=
  { courseNumber := (format line).getD 0 "",
    name := (format line).getD 1 "",
    prerequisites := (format line).drop 2 }

/-- `loadCoursesFile` (lines 348–398).  `lines` is the sequence `getline`
yields — `[]` when the file cannot be opened.  The function clears both
global structures before reading, consumes lines until `"-1"` or end of
input, rebuilds table and graph from the parsed records, and sets
`dataLoaded`; when at least one record was read it sorts the records with
`mergeSort` before returning them.  The prior state is destroyed
unconditionally by the initial clear. -/
def loadCoursesFile (prior : GlobalState) (lines : List String) : GlobalState × List Course :=
  let processed := (lines.takeWhile (fun l => decide (l ≠ "-1"))).map parseCourseLine
  let table := buildTable processed
  let graph := buildGraph processed
  if processed.isEmpty then
    ({ courseHashTable := table, prereqGraph := graph, dataLoaded := false }, processed)
  else
    ({ courseHashTable := table, prereqGraph := graph, dataLoaded := true },
      mergeSort processed 0 (processed.length - 1))

/-- A previously loaded one-course catalog state. -/
def priorLoaded : GlobalState :=
  { courseHashTable := buildTable [⟨"CSCI100", "Intro to CS", []⟩],
    prereqGraph := buildGraph [⟨"CSCI100", "Intro to CS", []⟩],
    dataLoaded := true }

/-- C4 is false on the code: the load clears both structures before reading
any input, so a failing load (here: an unreadable file, i.e. no lines) does
not leave the previously loaded store untouched — it leaves it empty. -/
theorem claim_C4_counterexample :
    (loadCoursesFile priorLoaded []).1.courseHashTable ≠ priorLoaded.courseHashTable ∧
    (loadCoursesFile priorLoaded []).1.courseHashTable = CourseHashTable.emptyTable ∧
    (loadCoursesFile priorLoaded []).1.dataLoaded = false := by
  decide

/-- C4 amended: a failed load (no record line before `"-1"` or end of
input) leaves both structures freshly cleared — empty, not the prior
catalog — reports no data via `dataLoaded = false`, and returns no
records; only a successful load populates the structures, with the new
catalog's data. -/
theorem claim_C4_failed_load_clears (prior : GlobalState) (lines : List String)
    (hfail : lines.takeWhile (fun l => decide (l ≠ "-1")) = []) :
    (loadCoursesFile prior lines).1 =
      { courseHashTable := CourseHashTable.emptyTable,
        prereqGraph := PrerequisiteGraph.emptyGraph, dataLoaded := false } ∧
    (loadCoursesFile prior lines).2 = [] := by
  rw [loadCoursesFile, hfail]
  exact ⟨rfl, rfl⟩

/-- Witness for the amended C4: loading a file whose first line is `"-1"`
over a previously loaded catalog leaves empty structures. -/
theorem claim_C4_witness :
    (loadCoursesFile priorLoaded ["-1"]).1 =
      { courseHashTable := CourseHashTable.emptyTable,
        prereqGraph := PrerequisiteGraph.emptyGraph, dataLoaded := false } ∧
    (loadCoursesFile priorLoaded ["-1"]).2 = [] :=
  claim_C4_failed_load_clears priorLoaded ["-1"] (by decide)
